import Mathlib

/-!
# A verification of the fine-grained reactive engine

This file embeds the reactive module of the repository (signals, effects,
memos, roots, batching — the Solid-style engine in the reactive source
file) as a deep embedding: user code is a small program syntax `Prog`, and
the engine's internal procedures (`runComputation`, `cleanupNode`,
`disposeNode`, `notify`, `batch` flushing) are the cases of a fuel-indexed
interpreter `exec` over an explicit `State`.  JavaScript `Set` objects
(subscriber sets, `sources`, the batch queue) are modelled as
insertion-ordered duplicate-free lists, matching `Set` iteration order;
`Object.is` on the value domain (integers and `undefined`) is plain
decidable equality; exceptions are an `Outcome`; `try`/`finally`
restoration is explicit on every exit path.
-/

set_option maxHeartbeats 4000000
set_option maxRecDepth 8192

/-- Values of the embedded language: JavaScript `undefined` or an integer.
`Object.is` on this domain is decidable equality (no `NaN`, no `-0`). -/
inductive Val where
  | undefined
  | i (n : Int)
deriving DecidableEq

/-- Pure expressions over the global register file (used for signal
initialisers, written values and updater results). -/
inductive Expr where
  | lit (v : Val)
  | reg (r : Nat)
  | add (a b : Expr)
  | mul (a b : Expr)

/-- Evaluate an expression against the register file. Arithmetic on
`undefined` yields `undefined`. -/
def Expr.eval (regs : List Val) : Expr → Val
  | .lit v => v
  | .reg r => regs.getD r .undefined
  | .add a b =>
      match a.eval regs, b.eval regs with
      | .i x, .i y => .i (x + y)
      | _, _ => .undefined
  | .mul a b =>
      match a.eval regs, b.eval regs with
      | .i x, .i y => .i (x * y)
      | _, _ => .undefined

/-- User programs: the client-visible API of the reactive module.
Signals and roots are identified by their creation index; `newSig` and
`mkRoot` pass the fresh index to a continuation, mirroring how the source
returns the accessor pair and hands `fn` its `dispose` callback. -/
inductive Prog where
  | skip
  | seq (p q : Prog)
  | ret (e : Expr)
  | newSig (init : Expr) (k : Nat → Prog)
  | readS (s : Nat) (dst : Nat)
  | writeV (s : Nat) (e : Expr)
  | writeF (s : Nat) (dst : Nat) (body : Prog) (e : Expr)
  | eff (body : Prog)
  | mkRoot (k : Nat → Prog)
  | disposeP (c : Nat)
  | batchP (body : Prog)
  | onCleanupP (body : Prog)
  | untrackP (body : Prog)
  | iteZ (r : Nat) (p q : Prog)
  | emit (e : Expr)
  | throwP

/-- Ghost events recording what the engine did, in order: the snapshot a
`notify` takes, each subscriber it visits (`notif`) or enqueues (`enq`),
each computation body that actually starts executing (`run`), and each
tracked signal read (`rd`). -/
inductive Evt where
  | pass (roster : List Nat)
  | notif (c : Nat)
  | enq (c : Nat)
  | run (c : Nat)
  | rd (s : Nat) (c : Nat)
deriving DecidableEq

/-- Result of a call: normal completion with a value, or a propagating
exception. -/
inductive Outcome where
  | ok (v : Val)
  | thrown
deriving DecidableEq

/-- A signal: current value plus its subscriber set (insertion order). -/
structure Sig where
  value : Val
  subs : List Nat
deriving DecidableEq

/-- A computation node, exactly the record of the source: user action
(`none` for roots and disposed nodes), back-references to the subscriber
sets it sits in (by signal index), registered cleanups, owner, and owned
children. -/
structure CompNode where
  fn : Option Prog
  sources : List Nat
  cleanups : List Prog
  owner : Option Nat
  owned : List Nat

/-- The whole engine state: the signal and computation stores, the two
ambient tracking globals, the batch counter and queue, plus the register
file, the observation log and the ghost event trace. -/
structure State where
  sigs : List Sig
  comps : List CompNode
  listener : Option Nat
  owner : Option Nat
  batchDepth : Nat
  batchQueue : List Nat
  regs : List Val
  log : List Val
  events : List Evt

def defaultSig : Sig := ⟨.undefined, []⟩

def defaultComp : CompNode := ⟨none, [], [], none, []⟩

def getSig (st : State) (s : Nat) : Sig := st.sigs.getD s defaultSig

def updSig (st : State) (s : Nat) (f : Sig → Sig) : State :=
  { st with sigs := st.sigs.set s (f (getSig st s)) }

def getComp (st : State) (c : Nat) : CompNode := st.comps.getD c defaultComp

def updComp (st : State) (c : Nat) (f : CompNode → CompNode) : State :=
  { st with comps := st.comps.set c (f (getComp st c)) }

/-- Write a register, growing the file with `undefined` as needed. -/
def setReg (regs : List Val) (r : Nat) (v : Val) : List Val :=
  if r < regs.length then regs.set r v
  else regs ++ List.replicate (r - regs.length) .undefined ++ [v]

/-- `Set.add`: append if absent, keep the original position if present. -/
def insertUniq (l : List Nat) (x : Nat) : List Nat := if x ∈ l then l else l ++ [x]

def pushEvt (st : State) (e : Evt) : State := { st with events := st.events ++ [e] }

def newCompNode (f : Option Prog) (ow : Option Nat) : CompNode := ⟨f, [], [], ow, []⟩

/-- `if (owner) owner.owned.push(comp)`. -/
def attachChild (st : State) (cid : Nat) : State :=
  match st.owner with
  | none => st
  | some o => updComp st o (fun cn => { cn with owned := cn.owned ++ [cid] })

/-- Allocate a computation node under the current owner (shared by
`createEffect` and `createRoot`). -/
def addComp (st : State) (f : Option Prog) : State × Nat :=
  let cid := st.comps.length
  (attachChild { st with comps := st.comps ++ [newCompNode f st.owner] } cid, cid)

/-- `for (const subs of comp.sources) subs.delete(comp)`. -/
def eraseFromSubs (st : State) (srcs : List Nat) (c : Nat) : State :=
  srcs.foldl (fun acc s => updSig acc s (fun sg => { sg with subs := sg.subs.erase c })) st

/-- `for (const s of subs) batchQueue.add(s)`, with a ghost `enq` event per
iteration. -/
def enqueueAll (st : State) (l : List Nat) : State :=
  l.foldl (fun acc c => pushEvt { acc with batchQueue := insertUniq acc.batchQueue c } (.enq c)) st

/-- The tracked-read bookkeeping of `read()`: when a listener is active,
add it to the signal's subscriber set and the subscriber set to the
listener's sources (both `Set.add`, hence idempotent). -/
def trackRead (st : State) (s : Nat) : State :=
  match st.listener with
  | none => st
  | some l =>
      pushEvt
        (updComp (updSig st s (fun sg => { sg with subs := insertUniq sg.subs l })) l
          (fun cn => { cn with sources := insertUniq cn.sources s }))
        (.rd s l)

/-- The interpreter's call forms: a user program, or one of the engine's
internal procedures (`runComputation`, `cleanupNode` and its two live
loops, `disposeNode`, `notify`, and the run-each-subscriber loop shared by
synchronous notification and the batch flush). -/
inductive Call where
  | prog (p : Prog)
  | comp (c : Nat)
  | clean (c : Nat)
  | cleanFrom (c : Nat) (i : Nat)
  | ownFrom (c : Nat) (i : Nat)
  | dispose (c : Nat)
  | notif (subs : List Nat)
  | subsRun (l : List Nat)

abbrev Res := State × Outcome

/-- Sequence two computations, propagating exceptions (and fuel
exhaustion). -/
def step (r : Option Res) (g : State → Option Res) : Option Res :=
  match r with
  | none => none
  | some (st, .thrown) => some (st, .thrown)
  | some (st, .ok _) => g st

/-- Apply a pure state transformation to a result on every exit path
(the `finally` blocks of the source). -/
def mapSt (g : State → State) (r : Option Res) : Option Res :=
  match r with
  | none => none
  | some (st, o) => some (g st, o)

/-- Discard a normal completion's value (a `void` function's return). -/
def voidify (r : Option Res) : Option Res :=
  match r with
  | none => none
  | some (st, .thrown) => some (st, .thrown)
  | some (st, .ok _) => some (st, .ok .undefined)

/-- The engine, one fuel unit per internal call.  Each `Call` case is the
direct transcription of the corresponding source function; comments name
the source lines being modelled. -/
def exec : Nat → Call → State → Option Res
  | 0, _, _ => none
  | fuel+1, kc, st =>
    match kc with
    | .prog .skip => some (st, .ok .undefined)
    | .prog (.ret e) => some (st, .ok (e.eval st.regs))
    | .prog (.seq p q) =>
        step (exec fuel (.prog p) st) (fun st1 => exec fuel (.prog q) st1)
    | .prog (.newSig init k1) =>
        -- createSignal: fresh cell with the initial value and no subscribers
        exec fuel (.prog (k1 st.sigs.length))
          { st with sigs := st.sigs ++ [⟨init.eval st.regs, []⟩] }
    | .prog (.readS s dst) =>
        -- read(): if (listener) { subscribers.add(listener); listener.sources.add(subscribers) }
        let st1 := trackRead st s
        some ({ st1 with regs := setReg st1.regs dst (getSig st1 s).value },
          .ok (getSig st1 s).value)
    | .prog (.writeV s e) =>
        -- write(next) with a plain value: no-op unless Object.is fails
        let cand := e.eval st.regs
        if cand = (getSig st s).value then some (st, .ok .undefined)
        else
          let st1 := updSig st s (fun sg => { sg with value := cand })
          voidify (exec fuel (.notif (getSig st1 s).subs) st1)
    | .prog (.writeF s dst body e) =>
        -- write(next) with an updater: next(value) runs first, then the
        -- candidate is compared against the (possibly re-read) stored value
        let st0 := { st with regs := setReg st.regs dst (getSig st s).value }
        step (exec fuel (.prog body) st0) (fun st1 =>
          let cand := e.eval st1.regs
          if cand = (getSig st1 s).value then some (st1, .ok .undefined)
          else
            let st2 := updSig st1 s (fun sg => { sg with value := cand })
            voidify (exec fuel (.notif (getSig st2 s).subs) st2))
    | .prog (.eff body) =>
        -- createEffect: allocate under the owner, then run immediately
        let pr := addComp st (some body)
        voidify (exec fuel (.comp pr.2) pr.1)
    | .prog (.mkRoot k1) =>
        -- createRoot: actionless node, owner set for the duration of fn,
        -- previous owner restored in a finally
        let pr := addComp st none
        mapSt (fun st4 => { st4 with owner := st.owner })
          (exec fuel (.prog (k1 pr.2)) { pr.1 with owner := some pr.2 })
    | .prog (.disposeP c) => exec fuel (.dispose c) st
    | .prog (.batchP body) =>
        -- batch: depth++, fn(), finally { depth--; flush when back at 0 }
        match exec fuel (.prog body) { st with batchDepth := st.batchDepth + 1 } with
        | none => none
        | some (st2, o) =>
            let st3 := { st2 with batchDepth := st2.batchDepth - 1 }
            if st3.batchDepth = 0 ∧ st3.batchQueue ≠ [] then
              match exec fuel (.subsRun st3.batchQueue) { st3 with batchQueue := [] } with
              | none => none
              | some (st5, .thrown) => some (st5, .thrown)
              | some (st5, .ok _) =>
                  some (st5, match o with | .thrown => .thrown | .ok _ => .ok .undefined)
            else some (st3, match o with | .thrown => .thrown | .ok _ => .ok .undefined)
    | .prog (.onCleanupP body) =>
        -- onCleanup: push on the owner's list, silently no-op without one
        match st.owner with
        | none => some (st, .ok .undefined)
        | some o =>
            some (updComp st o (fun cn => { cn with cleanups := cn.cleanups ++ [body] }),
              .ok .undefined)
    | .prog (.untrackP body) =>
        -- untrack: clear the listener, restore it on every exit path
        mapSt (fun st1 => { st1 with listener := st.listener })
          (exec fuel (.prog body) { st with listener := none })
    | .prog (.iteZ r p q) =>
        if st.regs.getD r .undefined = .i 0 then exec fuel (.prog p) st
        else exec fuel (.prog q) st
    | .prog (.emit e) => some ({ st with log := st.log ++ [e.eval st.regs] }, .ok .undefined)
    | .prog .throwP => some (st, .thrown)
    | .comp c =>
        -- runComputation: early return when fn is null; cleanup; unsubscribe
        -- from all sources; run under listener = owner = comp with a finally
        match (getComp st c).fn with
        | none => some (st, .ok .undefined)
        | some _ =>
            step (exec fuel (.clean c) st) (fun st1 =>
              let st2 := eraseFromSubs st1 (getComp st1 c).sources c
              let st3 := updComp st2 c (fun cn => { cn with sources := [] })
              let st4 := { st3 with listener := some c, owner := some c }
              let r :=
                match (getComp st3 c).fn with
                | none => some (st4, Outcome.thrown)
                | some body => exec fuel (.prog body) (pushEvt st4 (.run c))
              voidify (mapSt (fun st5 => { st5 with listener := st3.listener, owner := st3.owner }) r))
    | .clean c =>
        -- cleanupNode: drain cleanups then clear; dispose children then clear
        step (exec fuel (.cleanFrom c 0) st) (fun st1 =>
          let st2 := updComp st1 c (fun cn => { cn with cleanups := [] })
          step (exec fuel (.ownFrom c 0) st2) (fun st3 =>
            some (updComp st3 c (fun cn => { cn with owned := [] }), .ok .undefined)))
    | .cleanFrom c i =>
        -- for (const fn of comp.cleanups) fn()  — live array iteration
        let cls := (getComp st c).cleanups
        if i < cls.length then
          step (exec fuel (.prog (cls.getD i .skip)) st) (fun st1 =>
            exec fuel (.cleanFrom c (i+1)) st1)
        else some (st, .ok .undefined)
    | .ownFrom c i =>
        -- for (const child of comp.owned) disposeNode(child)  — live iteration
        let ow := (getComp st c).owned
        if i < ow.length then
          step (exec fuel (.dispose (ow.getD i 0)) st) (fun st1 =>
            exec fuel (.ownFrom c (i+1)) st1)
        else some (st, .ok .undefined)
    | .dispose c =>
        -- disposeNode: cleanup, leave every subscriber set, clear sources, fn = null
        step (exec fuel (.clean c) st) (fun st1 =>
          let st2 := eraseFromSubs st1 (getComp st1 c).sources c
          some (updComp st2 c (fun cn => { cn with sources := [], fn := none }), .ok .undefined))
    | .notif subs =>
        -- notify: snapshot, then enqueue during a batch, else run each
        let st0 := pushEvt st (.pass subs)
        if 0 < st.batchDepth then some (enqueueAll st0 subs, .ok .undefined)
        else exec fuel (.subsRun subs) st0
    | .subsRun l =>
        match l with
        | [] => some (st, .ok .undefined)
        | c :: rest =>
            step (exec fuel (.comp c) (pushEvt st (.notif c))) (fun st1 =>
              exec fuel (.subsRun rest) st1)

/-- The empty initial state: no signals, no computations, no ambient
listener or owner, batch depth zero. -/
def st0 : State := ⟨[], [], none, none, 0, [], [], [], []⟩

/-- The source's createMemo, verbatim: a signal seeded with `undefined`
and an effect whose body writes `fn()`'s result through an updater; only
the read side is handed on. -/
def createMemoP (scratch : Nat) (fnBody : Prog) (res : Expr) (k : Nat → Prog) : Prog :=
  .newSig (.lit .undefined) (fun s => .seq (.eff (.writeF s scratch fnBody res)) (k s))

/-! ## State invariants and the restoration theorem -/

/-- Well-formedness: every subscriber set and the batch queue are
duplicate-free (they model JavaScript `Set`s). -/
def WF (st : State) : Prop :=
  (∀ sg ∈ st.sigs, sg.subs.Nodup) ∧ st.batchQueue.Nodup

/-- What every completed engine call preserves: the ambient listener,
owner and batch depth come back to their entry values (all the source's
`finally` blocks together), the ghost event trace only grows, and
well-formedness is maintained. -/
def Pres (st st' : State) : Prop :=
  st'.listener = st.listener ∧ st'.owner = st.owner ∧
  st'.batchDepth = st.batchDepth ∧
  (∃ t, st'.events = st.events ++ t) ∧ (WF st → WF st')

theorem Pres.rfl (st : State) : Pres st st :=
  ⟨by rfl, by rfl, by rfl, ⟨[], by simp⟩, id⟩

theorem Pres.trans {a b c : State} (h1 : Pres a b) (h2 : Pres b c) : Pres a c := by
  obtain ⟨l1, o1, d1, ⟨t1, e1⟩, w1⟩ := h1
  obtain ⟨l2, o2, d2, ⟨t2, e2⟩, w2⟩ := h2
  exact ⟨l2.trans l1, o2.trans o1, d2.trans d1,
    ⟨t1 ++ t2, by rw [e2, e1, List.append_assoc]⟩, fun hw => w2 (w1 hw)⟩

theorem insertUniq_nodup {l : List Nat} {x : Nat} (h : l.Nodup) :
    (insertUniq l x).Nodup := by
  unfold insertUniq
  split
  · exact h
  · next hx => simpa [List.nodup_append] using ⟨h, hx⟩

theorem nodup_getD {l : List Sig} (hw : ∀ sg ∈ l, sg.subs.Nodup) (s : Nat) :
    (l.getD s defaultSig).subs.Nodup := by
  induction l generalizing s with
  | nil => simp [defaultSig]
  | cons a t ih =>
      cases s with
      | zero => exact hw a (by simp)
      | succ n =>
          simp only [List.getD_cons_succ]
          exact ih (fun sg h => hw sg (by simp [h])) n

theorem wf_getSig {st : State} (hw : WF st) (s : Nat) : (getSig st s).subs.Nodup :=
  nodup_getD hw.1 s

theorem pres_updSig {st : State} {s : Nat} {f : Sig → Sig}
    (hf : ∀ sg, sg.subs.Nodup → (f sg).subs.Nodup) : Pres st (updSig st s f) := by
  refine ⟨by rfl, by rfl, by rfl, ⟨[], by simp [updSig]⟩, fun hw => ?_⟩
  refine ⟨fun sg hsg => ?_, hw.2⟩
  rcases List.mem_or_eq_of_mem_set hsg with h | h
  · exact hw.1 sg h
  · subst h; exact hf _ (wf_getSig hw s)

theorem pres_updComp {st : State} {c : Nat} {f : CompNode → CompNode} :
    Pres st (updComp st c f) :=
  ⟨by rfl, by rfl, by rfl, ⟨[], by simp [updComp]⟩, fun hw => hw⟩

theorem pres_pushEvt {st : State} {e : Evt} : Pres st (pushEvt st e) :=
  ⟨by rfl, by rfl, by rfl, ⟨[e], by rfl⟩, fun hw => hw⟩

theorem pres_attachChild {st : State} {cid : Nat} : Pres st (attachChild st cid) := by
  unfold attachChild
  split
  · exact Pres.rfl st
  · exact pres_updComp

theorem pres_addComp {st : State} {f : Option Prog} : Pres st (addComp st f).1 := by
  have hmid : Pres st { st with comps := st.comps ++ [newCompNode f st.owner] } :=
    ⟨by rfl, by rfl, by rfl, ⟨[], by simp⟩, fun hw => hw⟩
  exact Pres.trans hmid pres_attachChild

theorem pres_eraseFromSubs {st : State} {srcs : List Nat} {c : Nat} :
    Pres st (eraseFromSubs st srcs c) := by
  induction srcs generalizing st with
  | nil => exact Pres.rfl st
  | cons s rest ih =>
      exact Pres.trans (pres_updSig (fun sg hn => hn.erase c)) ih

theorem pres_enqueueAll {st : State} {l : List Nat} : Pres st (enqueueAll st l) := by
  induction l generalizing st with
  | nil => exact Pres.rfl st
  | cons c rest ih =>
      refine Pres.trans ?_ ih
      refine ⟨by rfl, by rfl, by rfl, ⟨[.enq c], by rfl⟩, fun hw => ?_⟩
      exact ⟨hw.1, insertUniq_nodup hw.2⟩

theorem step_inv {r : Option Res} {g : State → Option Res} {st' : State} {o : Outcome}
    (h : step r g = some (st', o)) :
    (r = some (st', .thrown) ∧ o = .thrown) ∨
    (∃ st1 v, r = some (st1, .ok v) ∧ g st1 = some (st', o)) := by
  rcases r with _ | ⟨st1, o1⟩
  · simp [step] at h
  · rcases o1 with v | _
    · exact Or.inr ⟨st1, v, rfl, h⟩
    · simp [step] at h
      exact Or.inl ⟨by rw [h.1], h.2.symm⟩

theorem mapSt_inv {g : State → State} {r : Option Res} {st' : State} {o : Outcome}
    (h : mapSt g r = some (st', o)) : ∃ st1, r = some (st1, o) ∧ st' = g st1 := by
  rcases r with _ | ⟨st1, o1⟩
  · simp [mapSt] at h
  · simp [mapSt] at h
    exact ⟨st1, by rw [h.2], h.1.symm⟩

theorem voidify_inv {r : Option Res} {st' : State} {o : Outcome}
    (h : voidify r = some (st', o)) : ∃ o1, r = some (st', o1) := by
  rcases r with _ | ⟨st1, o1⟩
  · simp [voidify] at h
  · rcases o1 with v | _ <;> simp [voidify] at h
    · exact ⟨.ok v, by rw [h.1]⟩
    · exact ⟨.thrown, by rw [h.1]⟩

theorem Pres.of_parts {st st' : State}
    (hl : st'.listener = st.listener) (ho : st'.owner = st.owner)
    (hd : st'.batchDepth = st.batchDepth) (hs : st'.sigs = st.sigs)
    (hq : st'.batchQueue = st.batchQueue) (he : ∃ t, st'.events = st.events ++ t) :
    Pres st st' := by
  refine ⟨hl, ho, hd, he, fun hw => ?_⟩
  unfold WF at hw ⊢
  rw [hs, hq]
  exact hw

theorem pres_trackRead {st : State} {s : Nat} : Pres st (trackRead st s) := by
  unfold trackRead
  split
  · exact Pres.rfl st
  · exact Pres.trans
      (Pres.trans (pres_updSig (fun sg hn => insertUniq_nodup hn)) pres_updComp) pres_pushEvt

/-- Every completed engine call — user program, computation run, cleanup,
disposal, notification or flush — restores the ambient listener, owner and
batch depth, only appends to the event trace, and preserves
well-formedness, on normal and exceptional exits alike. -/
theorem exec_pres : ∀ fuel kc st st' o, exec fuel kc st = some (st', o) → Pres st st' := by
  intro fuel
  induction fuel with
  | zero => intro kc st st' o h; simp [exec] at h
  | succ fuel ih =>
    intro kc st st' o h
    cases kc with
    | prog p =>
      cases p with
      | skip =>
          simp only [exec, Option.some.injEq, Prod.mk.injEq] at h
          obtain ⟨h1, -⟩ := h
          subst h1
          exact Pres.rfl _
      | seq p q =>
          simp only [exec] at h
          rcases step_inv h with ⟨h1, rfl⟩ | ⟨st1, v, h1, h2⟩
          · exact ih _ _ _ _ h1
          · exact Pres.trans (ih _ _ _ _ h1) (ih _ _ _ _ h2)
      | ret e =>
          simp only [exec, Option.some.injEq, Prod.mk.injEq] at h
          obtain ⟨h1, -⟩ := h
          subst h1
          exact Pres.rfl _
      | newSig init k1 =>
          simp only [exec] at h
          have hmid : Pres st { st with sigs := st.sigs ++ [⟨init.eval st.regs, []⟩] } := by
            refine ⟨rfl, rfl, rfl, ⟨[], by simp⟩, fun hw => ⟨?_, hw.2⟩⟩
            intro sg hsg
            rcases List.mem_append.mp hsg with h1 | h1
            · exact hw.1 sg h1
            · simp only [List.mem_singleton] at h1
              subst h1
              exact List.nodup_nil
          exact Pres.trans hmid (ih _ _ _ _ h)
      | readS s dst =>
          simp only [exec, Option.some.injEq, Prod.mk.injEq] at h
          obtain ⟨h1, -⟩ := h
          subst h1
          exact Pres.trans pres_trackRead (Pres.of_parts rfl rfl rfl rfl rfl ⟨[], by simp⟩)
      | writeV s e =>
          simp only [exec] at h
          split at h
          · simp only [Option.some.injEq, Prod.mk.injEq] at h
            obtain ⟨h1, -⟩ := h
            subst h1
            exact Pres.rfl _
          · obtain ⟨o1, h2⟩ := voidify_inv h
            have hmid : Pres st (updSig st s (fun sg => { sg with value := e.eval st.regs })) :=
              pres_updSig (fun sg hn => hn)
            exact Pres.trans hmid (ih _ _ _ _ h2)
      | writeF s dst body e =>
          simp only [exec] at h
          have hmid : Pres st { st with regs := setReg st.regs dst (getSig st s).value } :=
            Pres.of_parts rfl rfl rfl rfl rfl ⟨[], by simp⟩
          rcases step_inv h with ⟨h1, rfl⟩ | ⟨st1, v, h1, h2⟩
          · exact Pres.trans hmid (ih _ _ _ _ h1)
          · refine Pres.trans hmid ?_
            refine Pres.trans (ih _ _ _ _ h1) ?_
            split at h2
            · simp only [Option.some.injEq, Prod.mk.injEq] at h2
              obtain ⟨h3, -⟩ := h2
              subst h3
              exact Pres.rfl _
            · obtain ⟨o1, h3⟩ := voidify_inv h2
              have hmid2 : Pres st1
                  (updSig st1 s (fun sg => { sg with value := e.eval st1.regs })) :=
                pres_updSig (fun sg hn => hn)
              exact Pres.trans hmid2 (ih _ _ _ _ h3)
      | eff body =>
          simp only [exec] at h
          obtain ⟨o1, h2⟩ := voidify_inv h
          exact Pres.trans pres_addComp (ih _ _ _ _ h2)
      | mkRoot k1 =>
          simp only [exec] at h
          obtain ⟨st4, h2, rfl⟩ := mapSt_inv h
          obtain ⟨hl, ho, hd, ⟨t, he⟩, hwf⟩ := ih _ _ _ _ h2
          have haux : Pres st (addComp st (none : Option Prog)).1 := pres_addComp
          obtain ⟨hl1, ho1, hd1, ⟨t1, he1⟩, hwf1⟩ := haux
          refine ⟨hl.trans hl1, rfl, hd.trans hd1, ⟨t1 ++ t, ?_⟩, fun hw => hwf (hwf1 hw)⟩
          show st4.events = st.events ++ (t1 ++ t)
          rw [he]
          show (addComp st none).1.events ++ t = st.events ++ (t1 ++ t)
          rw [he1, List.append_assoc]
      | disposeP c =>
          simp only [exec] at h
          exact ih _ _ _ _ h
      | batchP body =>
          simp only [exec] at h
          split at h
          · exact absurd h (by simp)
          · next st2 o2 hb =>
            have hP2 := ih _ _ _ _ hb
            obtain ⟨hl, ho, hd, ⟨t, he⟩, hwf⟩ := hP2
            have hd2 : st2.batchDepth = st.batchDepth + 1 := hd
            split at h
            · split at h
              · exact absurd h (by simp)
              · next st5 hq5 =>
                have hP5 := ih _ _ _ _ hq5
                obtain ⟨hl5, ho5, hd5, ⟨t5, he5⟩, hwf5⟩ := hP5
                simp only [Option.some.injEq, Prod.mk.injEq] at h
                obtain ⟨h1, -⟩ := h
                subst h1
                refine ⟨hl5.trans hl, ho5.trans ho, ?_, ⟨t ++ t5, ?_⟩, fun hw => ?_⟩
                · have hd5x : st5.batchDepth = st2.batchDepth - 1 := hd5
                  omega
                · rw [he5]
                  show st2.events ++ t5 = st.events ++ (t ++ t5)
                  rw [he, List.append_assoc]
                · have hw2 : WF st2 := hwf hw
                  have hw5 : WF st5 := hwf5 ⟨hw2.1, List.nodup_nil⟩
                  exact hw5
              · next st5 v5 hq5 =>
                have hP5 := ih _ _ _ _ hq5
                obtain ⟨hl5, ho5, hd5, ⟨t5, he5⟩, hwf5⟩ := hP5
                simp only [Option.some.injEq, Prod.mk.injEq] at h
                obtain ⟨h1, -⟩ := h
                subst h1
                refine ⟨hl5.trans hl, ho5.trans ho, ?_, ⟨t ++ t5, ?_⟩, fun hw => ?_⟩
                · have hd5x : st5.batchDepth = st2.batchDepth - 1 := hd5
                  omega
                · rw [he5]
                  show st2.events ++ t5 = st.events ++ (t ++ t5)
                  rw [he, List.append_assoc]
                · have hw2 : WF st2 := hwf hw
                  have hw5 : WF st5 := hwf5 ⟨hw2.1, List.nodup_nil⟩
                  exact hw5
            · simp only [Option.some.injEq, Prod.mk.injEq] at h
              obtain ⟨h1, -⟩ := h
              subst h1
              refine ⟨hl, ho, ?_, ⟨t, he⟩, fun hw => hwf hw⟩
              show st2.batchDepth - 1 = st.batchDepth
              omega
      | onCleanupP body =>
          simp only [exec] at h
          split at h
          · simp only [Option.some.injEq, Prod.mk.injEq] at h
            obtain ⟨h1, -⟩ := h
            subst h1
            exact Pres.rfl _
          · simp only [Option.some.injEq, Prod.mk.injEq] at h
            obtain ⟨h1, -⟩ := h
            subst h1
            exact pres_updComp
      | untrackP body =>
          simp only [exec] at h
          obtain ⟨st1, h2, rfl⟩ := mapSt_inv h
          obtain ⟨hl, ho, hd, ⟨t, he⟩, hwf⟩ := ih _ _ _ _ h2
          exact ⟨rfl, ho, hd, ⟨t, he⟩, fun hw => hwf hw⟩
      | iteZ r p q =>
          simp only [exec] at h
          split at h
          · exact ih _ _ _ _ h
          · exact ih _ _ _ _ h
      | emit e =>
          simp only [exec, Option.some.injEq, Prod.mk.injEq] at h
          obtain ⟨h1, -⟩ := h
          subst h1
          exact Pres.of_parts rfl rfl rfl rfl rfl ⟨[], by simp⟩
      | throwP =>
          simp only [exec, Option.some.injEq, Prod.mk.injEq] at h
          obtain ⟨h1, -⟩ := h
          subst h1
          exact Pres.rfl _
    | comp c =>
        simp only [exec] at h
        split at h
        · simp only [Option.some.injEq, Prod.mk.injEq] at h
          obtain ⟨h1, -⟩ := h
          subst h1
          exact Pres.rfl _
        · rcases step_inv h with ⟨h1, rfl⟩ | ⟨st1, v, h1, h2⟩
          · exact ih _ _ _ _ h1
          · have hP1 : Pres st st1 := ih _ _ _ _ h1
            obtain ⟨o1, h3⟩ := voidify_inv h2
            obtain ⟨st5, h4, rfl⟩ := mapSt_inv h3
            have hmid : Pres st1 (updComp (eraseFromSubs st1 (getComp st1 c).sources c) c
                (fun cn => { cn with sources := [] })) :=
              Pres.trans pres_eraseFromSubs pres_updComp
            refine Pres.trans (Pres.trans hP1 hmid) ?_
            split at h4
            · simp only [Option.some.injEq, Prod.mk.injEq] at h4
              obtain ⟨h5, -⟩ := h4
              subst h5
              exact Pres.of_parts rfl rfl rfl rfl rfl ⟨[], by simp⟩
            · have hP5 := ih _ _ _ _ h4
              obtain ⟨hl5, ho5, hd5, ⟨t5, he5⟩, hw5⟩ := hP5
              refine ⟨rfl, rfl, hd5, ⟨.run c :: t5, ?_⟩, fun hw => hw5 hw⟩
              simpa [pushEvt] using he5
    | clean c =>
        simp only [exec] at h
        rcases step_inv h with ⟨h1, rfl⟩ | ⟨st1, v, h1, h2⟩
        · exact ih _ _ _ _ h1
        · have hP1 := ih _ _ _ _ h1
          rcases step_inv h2 with ⟨h3, rfl⟩ | ⟨st3, v3, h3, h4⟩
          · exact Pres.trans hP1 (Pres.trans pres_updComp (ih _ _ _ _ h3))
          · simp only [Option.some.injEq, Prod.mk.injEq] at h4
            obtain ⟨h5, -⟩ := h4
            subst h5
            exact Pres.trans hP1
              (Pres.trans pres_updComp (Pres.trans (ih _ _ _ _ h3) pres_updComp))
    | cleanFrom c i =>
        simp only [exec] at h
        split at h
        · rcases step_inv h with ⟨h1, rfl⟩ | ⟨st1, v, h1, h2⟩
          · exact ih _ _ _ _ h1
          · exact Pres.trans (ih _ _ _ _ h1) (ih _ _ _ _ h2)
        · simp only [Option.some.injEq, Prod.mk.injEq] at h
          obtain ⟨h1, -⟩ := h
          subst h1
          exact Pres.rfl _
    | ownFrom c i =>
        simp only [exec] at h
        split at h
        · rcases step_inv h with ⟨h1, rfl⟩ | ⟨st1, v, h1, h2⟩
          · exact ih _ _ _ _ h1
          · exact Pres.trans (ih _ _ _ _ h1) (ih _ _ _ _ h2)
        · simp only [Option.some.injEq, Prod.mk.injEq] at h
          obtain ⟨h1, -⟩ := h
          subst h1
          exact Pres.rfl _
    | dispose c =>
        simp only [exec] at h
        rcases step_inv h with ⟨h1, rfl⟩ | ⟨st1, v, h1, h2⟩
        · exact ih _ _ _ _ h1
        · simp only [Option.some.injEq, Prod.mk.injEq] at h2
          obtain ⟨h3, -⟩ := h2
          subst h3
          exact Pres.trans (ih _ _ _ _ h1) (Pres.trans pres_eraseFromSubs pres_updComp)
    | notif subs =>
        simp only [exec] at h
        split at h
        · simp only [Option.some.injEq, Prod.mk.injEq] at h
          obtain ⟨h1, -⟩ := h
          subst h1
          exact Pres.trans pres_pushEvt pres_enqueueAll
        · exact Pres.trans pres_pushEvt (ih _ _ _ _ h)
    | subsRun l =>
        cases l with
        | nil =>
            simp only [exec, Option.some.injEq, Prod.mk.injEq] at h
            obtain ⟨h1, -⟩ := h
            subst h1
            exact Pres.rfl _
        | cons c rest =>
            simp only [exec] at h
            rcases step_inv h with ⟨h1, rfl⟩ | ⟨st1, v, h1, h2⟩
            · exact Pres.trans pres_pushEvt (ih _ _ _ _ h1)
            · exact Pres.trans (Pres.trans pres_pushEvt (ih _ _ _ _ h1)) (ih _ _ _ _ h2)

/-! ## Notification completeness -/

theorem getD_set_self {α : Type} (l : List α) (n : Nat) (a d : α) :
    (l.set n a).getD n d = if n < l.length then a else d := by
  induction l generalizing n with
  | nil => simp
  | cons x t ih =>
      cases n with
      | zero => simp
      | succ m => simpa using ih m

theorem getD_set_ne {α : Type} (l : List α) (m n : Nat) (a d : α) (h : m ≠ n) :
    (l.set m a).getD n d = l.getD n d := by
  induction l generalizing m n with
  | nil => simp
  | cons x t ih =>
      cases m with
      | zero =>
          cases n with
          | zero => exact absurd rfl h
          | succ n2 => simp
      | succ m2 =>
          cases n with
          | zero => simp
          | succ n2 => simpa using ih m2 n2 (by omega)

theorem getD_ge {α : Type} (l : List α) (n : Nat) (d : α) (h : l.length ≤ n) :
    l.getD n d = d := by
  induction l generalizing n with
  | nil => simp
  | cons x t ih =>
      cases n with
      | zero => simp at h
      | succ m => simpa using ih m (by simpa using h)

theorem getSig_updSig_self (st : State) (s : Nat) (f : Sig → Sig) :
    getSig (updSig st s f) s = if s < st.sigs.length then f (getSig st s) else defaultSig := by
  show (st.sigs.set s (f (getSig st s))).getD s defaultSig = _
  rw [getD_set_self]

theorem getSig_subs_value_upd (st : State) (s : Nat) (v : Val) :
    (getSig (updSig st s (fun sg => { sg with value := v })) s).subs = (getSig st s).subs := by
  rw [getSig_updSig_self]
  split
  · rfl
  · next hno =>
      show defaultSig.subs = (getSig st s).subs
      unfold getSig
      rw [getD_ge st.sigs s defaultSig (by omega)]

theorem enqueueAll_events : ∀ (l : List Nat) (st : State),
    (enqueueAll st l).events = st.events ++ l.map .enq := by
  intro l
  induction l with
  | nil => intro st; simp [enqueueAll]
  | cons c rest ih =>
      intro st
      show (enqueueAll (pushEvt { st with batchQueue := insertUniq st.batchQueue c } (.enq c)) rest).events = _
      rw [ih]
      simp [pushEvt]

/-- A completed synchronous pass visits every listed subscriber: the new
events contain a `notif c` for each `c` in the list. -/
theorem subsRun_all : ∀ fuel l st st' v,
    exec fuel (.subsRun l) st = some (st', .ok v) →
    ∃ t, st'.events = st.events ++ t ∧ ∀ c ∈ l, Evt.notif c ∈ t := by
  intro fuel
  induction fuel with
  | zero => intro l st st' v h; simp [exec] at h
  | succ fuel ih =>
      intro l st st' v h
      cases l with
      | nil =>
          simp only [exec, Option.some.injEq, Prod.mk.injEq] at h
          obtain ⟨h1, -⟩ := h
          subst h1
          exact ⟨[], by simp⟩
      | cons c rest =>
          simp only [exec] at h
          rcases step_inv h with ⟨h1, heq⟩ | ⟨st1, v1, h1, h2⟩
          · exact absurd heq (by simp)
          · obtain ⟨-, -, -, ⟨t1, he1⟩, -⟩ := exec_pres _ _ _ _ _ h1
            obtain ⟨t2, he2, hmem⟩ := ih rest st1 st' v h2
            refine ⟨.notif c :: (t1 ++ t2), ?_, ?_⟩
            · rw [he2, he1]
              simp [pushEvt]
            · intro c2 hc2
              rcases List.mem_cons.mp hc2 with h3 | h3
              · subst h3; exact List.mem_cons_self _ _
              · exact List.mem_cons_of_mem _ (List.mem_append_right _ (hmem c2 h3))

/-- A completed `notify` records the snapshot it took and then reaches
every subscriber in it: running it when unbatched, enqueueing it when
batched. -/
theorem notif_all : ∀ fuel subs st st' o,
    exec (fuel+1) (.notif subs) st = some (st', o) →
    ∃ t, st'.events = st.events ++ .pass subs :: t ∧
      (∀ v, o = .ok v → ∀ c ∈ subs,
        (st.batchDepth = 0 → Evt.notif c ∈ t) ∧ (0 < st.batchDepth → Evt.enq c ∈ t)) := by
  intro fuel subs st st' o h
  simp only [exec] at h
  split at h
  · next hpos =>
    simp only [Option.some.injEq, Prod.mk.injEq] at h
    obtain ⟨h1, -⟩ := h
    subst h1
    refine ⟨subs.map .enq, ?_, ?_⟩
    · rw [enqueueAll_events]
      simp [pushEvt]
    · intro v hv c hc
      exact ⟨fun h0 => absurd h0 (by omega), fun _ => List.mem_map_of_mem _ hc⟩
  · next hpos =>
    have hz : st.batchDepth = 0 := by omega
    rcases o with v | _
    · obtain ⟨t, he, hmem⟩ := subsRun_all _ _ _ _ _ h
      refine ⟨t, ?_, ?_⟩
      · rw [he]; simp [pushEvt]
      · intro v2 hv c hc
        exact ⟨fun _ => hmem c hc, fun hgt => absurd hz (by omega)⟩
    · obtain ⟨-, -, -, ⟨t, he⟩, -⟩ := exec_pres _ _ _ _ _ h
      refine ⟨t, ?_, ?_⟩
      · rw [he]; simp [pushEvt]
      · intro v2 hv
        exact absurd hv (by simp)

/-! ## The claims -/

/-- A state with just signals: no computations, no ambient tracking,
batch depth zero (handy for witnesses). -/
def sigOnlySt (sgs : List Sig) : State := ⟨sgs, [], none, none, 0, [], [], [], []⟩

/-- c1: for every signal and write, if the candidate value (after the
updater, when one is given) is `Object.is`-equal to the stored value the
write is a complete no-op — the final state is exactly the entry state,
so the stored value is unchanged and no subscriber is notified or re-run;
if the candidate differs, the write stores it and invokes notify on the
signal's current subscriber set, which (when it completes) reaches every
one of those subscribers — running each when unbatched, enqueueing each
when batched. -/
theorem c1_noop_write_suppression :
    (∀ fuel st s e, e.eval st.regs = (getSig st s).value →
        exec (fuel+1) (.prog (.writeV s e)) st = some (st, .ok .undefined)) ∧
    (∀ fuel st s dst body e st1 v,
        exec fuel (.prog body)
          { st with regs := setReg st.regs dst (getSig st s).value } = some (st1, .ok v) →
        e.eval st1.regs = (getSig st1 s).value →
        exec (fuel+1) (.prog (.writeF s dst body e)) st = some (st1, .ok .undefined)) ∧
    (∀ fuel st s e st' o, e.eval st.regs ≠ (getSig st s).value →
        exec (fuel+1) (.prog (.writeV s e)) st = some (st', o) →
        exec (fuel+1) (.prog (.writeV s e)) st =
          voidify (exec fuel (.notif (getSig st s).subs)
            (updSig st s (fun sg => { sg with value := e.eval st.regs }))) ∧
        ∃ t, st'.events = st.events ++ .pass (getSig st s).subs :: t ∧
          (∀ v, o = .ok v → ∀ c ∈ (getSig st s).subs,
            (st.batchDepth = 0 → Evt.notif c ∈ t) ∧ (0 < st.batchDepth → Evt.enq c ∈ t))) := by
  refine ⟨?_, ?_, ?_⟩
  · intro fuel st s e he
    simp only [exec]
    rw [if_pos he]
  · intro fuel st s dst body e st1 v h1 h2
    simp only [exec]
    rw [h1]
    simp only [step]
    rw [if_pos h2]
  · intro fuel st s e st' o hne h
    have hgate : exec (fuel+1) (.prog (.writeV s e)) st =
        voidify (exec fuel (.notif (getSig st s).subs)
          (updSig st s (fun sg => { sg with value := e.eval st.regs }))) := by
      simp only [exec]
      rw [if_neg hne, getSig_subs_value_upd]
    refine ⟨hgate, ?_⟩
    rw [hgate] at h
    obtain ⟨o1, h2⟩ := voidify_inv h
    cases fuel with
    | zero => rw [show exec 0 (.notif (getSig st s).subs)
          (updSig st s (fun sg => { sg with value := e.eval st.regs })) = none from rfl] at h2
              exact absurd h2 (by simp)
    | succ fuel2 =>
        obtain ⟨t, he, hP⟩ := notif_all _ _ _ _ _ h2
        refine ⟨t, he, ?_⟩
        intro v hv c hc
        rw [h2] at h
        rcases o1 with v1 | _
        · exact ⟨fun h0 => (hP v1 rfl c hc).1 h0, fun hgt => (hP v1 rfl c hc).2 hgt⟩
        · rw [hv] at h
          simp [voidify] at h

/-- c1 witness: writing the already-stored value `5` into a one-signal
state leaves the state exactly unchanged. -/
theorem c1_noop_write_suppression_witness :
    Expr.eval (sigOnlySt [⟨.i 5, [] ⟩]).regs (.lit (.i 5)) =
      (getSig (sigOnlySt [⟨.i 5, []⟩]) 0).value ∧
    exec 4 (.prog (.writeV 0 (.lit (.i 5)))) (sigOnlySt [⟨.i 5, []⟩]) =
      some (sigOnlySt [⟨.i 5, []⟩], .ok .undefined) :=
  ⟨rfl, c1_noop_write_suppression.1 3 (sigOnlySt [⟨.i 5, []⟩]) 0 (.lit (.i 5)) rfl⟩

/-- The c9 demonstration program: an effect that, on its re-run, creates a
second effect subscribing to the same signal mid-pass. -/
def progC9 : Prog :=
  .newSig (.lit (.i 0)) (fun s =>
    .seq (.eff (.seq (.readS s 0) (.iteZ 0 .skip (.eff (.readS s 1)))))
      (.writeV s (.lit (.i 1))))

/-- c9: an unbatched changing write drives exactly the subscriber list
captured at the moment of the write — the engine stores the value,
records the snapshot, and runs precisely that duplicate-free roster, so
subscriptions added or removed by the computations run during the pass
cannot change which computations this pass runs.  The demonstration: a
subscriber that creates a new subscriber of the same signal mid-pass; the
newcomer ends up subscribed but is never notified in that pass (its one
`run` event is its immediate first execution at creation). -/
theorem c9_snapshot_notification :
    (∀ fuel st s e st' o, WF st → st.batchDepth = 0 →
        e.eval st.regs ≠ (getSig st s).value →
        exec (fuel+2) (.prog (.writeV s e)) st = some (st', o) →
        (getSig st s).subs.Nodup ∧
        exec (fuel+2) (.prog (.writeV s e)) st =
          voidify (exec fuel (.subsRun (getSig st s).subs)
            (pushEvt (updSig st s (fun sg => { sg with value := e.eval st.regs }))
              (.pass (getSig st s).subs)))) ∧
    (exec 30 (.prog progC9) st0).map (fun r =>
        ((getSig r.1 0).subs, r.1.events.count (.notif 1), r.1.events.count (.run 1), r.2)) =
      some ([0, 1], 0, 1, .ok .undefined) := by
  refine ⟨?_, by decide⟩
  intro fuel st s e st' o hw hd hne h
  refine ⟨wf_getSig hw s, ?_⟩
  have h1 : exec (fuel+1+1) (.prog (.writeV s e)) st =
      voidify (exec (fuel+1) (.notif (getSig st s).subs)
        (updSig st s (fun sg => { sg with value := e.eval st.regs }))) := by
    simp only [exec]
    rw [if_neg hne, getSig_subs_value_upd]
  rw [h1]
  have h2 : exec (fuel+1) (.notif (getSig st s).subs)
      (updSig st s (fun sg => { sg with value := e.eval st.regs })) =
      exec fuel (.subsRun (getSig st s).subs)
        (pushEvt (updSig st s (fun sg => { sg with value := e.eval st.regs }))
          (.pass (getSig st s).subs)) := by
    have hnb : ¬ 0 < (updSig st s (fun sg =>
        { sg with value := e.eval st.regs })).batchDepth := by
      show ¬ 0 < st.batchDepth
      omega
    simp only [exec]
    rw [if_neg hnb]
  rw [h2]

/-- c9 witness: a changing write on a subscriber-free one-signal state
satisfies every hypothesis, the snapshot roster is duplicate-free and the
write equals the store-snapshot-run pipeline. -/
theorem c9_snapshot_notification_witness :
    WF (sigOnlySt [⟨.i 0, []⟩]) ∧
    (sigOnlySt [⟨.i 0, []⟩]).batchDepth = 0 ∧
    Expr.eval (sigOnlySt [⟨.i 0, []⟩]).regs (.lit (.i 1)) ≠
      (getSig (sigOnlySt [⟨.i 0, []⟩]) 0).value ∧
    exec 5 (.prog (.writeV 0 (.lit (.i 1)))) (sigOnlySt [⟨.i 0, []⟩]) =
      some (⟨[⟨.i 1, []⟩], [], none, none, 0, [], [], [], [.pass []]⟩, .ok .undefined) ∧
    (getSig (sigOnlySt [⟨.i 0, []⟩]) 0).subs.Nodup := by
  refine ⟨⟨by decide, by decide⟩, rfl, by decide, rfl, ?_⟩
  exact (c9_snapshot_notification.1 3 (sigOnlySt [⟨.i 0, []⟩]) 0 (.lit (.i 1))
    ⟨[⟨.i 1, []⟩], [], none, none, 0, [], [], [], [.pass []]⟩ (.ok .undefined)
    ⟨by decide, by decide⟩ rfl (by decide) rfl).1

/-- The c2 program: one effect reading two signals, then both signals
written inside one batch, the second write inside a nested batch. -/
def progC2 (a0 b0 a1 b1 : Int) : Prog :=
  .newSig (.lit (.i a0)) (fun a =>
  .newSig (.lit (.i b0)) (fun b =>
  .seq (.eff (.seq (.readS a 0) (.seq (.readS b 1)
        (.seq (.emit (.reg 0)) (.emit (.reg 1))))))
    (.batchP (.seq (.writeV a (.lit (.i a1))) (.batchP (.writeV b (.lit (.i b1))))))))

/-- c2: for any initial and written values, an effect subscribed to both
signals runs exactly once more after the (nested) batch — its `run` count
is two: creation plus one flush — and that flush observes the final
values of both signals: the log is the creation pair followed by exactly
the post-batch pair, never an intermediate combination; the nested batch
flushes nothing of its own. -/
theorem c2_batch_coalescing : ∀ a0 b0 a1 b1 : Int, a1 ≠ a0 → b1 ≠ b0 →
    (exec 60 (.prog (progC2 a0 b0 a1 b1)) st0).map
        (fun r => (r.1.log, r.1.events.count (.run 0), r.2)) =
      some ([.i a0, .i b0, .i a1, .i b1], 2, .ok .undefined) := by
  intro a0 b0 a1 b1 h1 h2
  simp [progC2, exec, step, voidify, mapSt, st0, getSig, updSig, getComp, updComp,
    addComp, attachChild, newCompNode, defaultSig, defaultComp, setReg, insertUniq,
    pushEvt, eraseFromSubs, enqueueAll, trackRead, Expr.eval, h1, h2, List.erase]

/-- c2 witness: the batch scenario at the concrete values 0,0 to 1,2. -/
theorem c2_batch_coalescing_witness :
    (1 : Int) ≠ 0 ∧ (2 : Int) ≠ 0 ∧
    (exec 60 (.prog (progC2 0 0 1 2)) st0).map
        (fun r => (r.1.log, r.1.events.count (.run 0), r.2)) =
      some ([.i 0, .i 0, .i 1, .i 2], 2, .ok .undefined) :=
  ⟨by decide, by decide, c2_batch_coalescing 0 0 1 2 (by decide) (by decide)⟩

/-- The c5 program: an effect reading branch signal 0 and then, depending
on it, exactly one of signal 1 (branch nonzero) or signal 2 (branch
zero); afterwards the branch signal is flipped from 1 to 0. -/
def progC5 : Prog :=
  .newSig (.lit (.i 1)) (fun c =>
  .newSig (.lit (.i 10)) (fun a =>
  .newSig (.lit (.i 20)) (fun b =>
  .seq (.eff (.seq (.readS c 0) (.iteZ 0 (.readS b 1) (.readS a 1))))
    (.writeV c (.lit (.i 0))))))

/-- c5: after the re-run caused by flipping the branch signal, the
effect's subscriptions are exactly the signals read in that run — it is
gone from signal 1's subscriber set (read only in the first run), present
in signal 2's, and its `sources` list exactly the branch signal and
signal 2, with signal 1 no longer among them. -/
theorem c5_tracking_precision :
    (exec 40 (.prog progC5) st0).map (fun r =>
        ((getSig r.1 0).subs, (getSig r.1 1).subs, (getSig r.1 2).subs,
          (getComp r.1 0).sources, r.2)) =
      some ([0], [], [0], [0, 2], .ok .undefined) := by
  decide

/-- The c6 program: a counted memo `2*count` (marker 10), a counted
constant memo `count*0` (marker 20), one effect per memo (markers 30 and
40), two reads of the first memo with no upstream change (into register
7), an upstream write, and a final read (into register 8). -/
def progC6 (v0 v1 : Int) : Prog :=
  .newSig (.lit (.i v0)) (fun cnt =>
  createMemoP 5 (.seq (.emit (.lit (.i 10))) (.readS cnt 1)) (.add (.reg 1) (.reg 1)) (fun m1 =>
  createMemoP 6 (.seq (.emit (.lit (.i 20))) (.readS cnt 2)) (.mul (.reg 2) (.lit (.i 0))) (fun m2 =>
  .seq (.eff (.seq (.readS m1 3) (.emit (.lit (.i 30)))))
  (.seq (.eff (.seq (.readS m2 4) (.emit (.lit (.i 40)))))
  (.seq (.readS m1 7) (.seq (.readS m1 7)
  (.seq (.writeV cnt (.lit (.i v1))) (.readS m1 8))))))))

/-- c6: for any initial and changed upstream values, each memo's function
runs exactly once at creation (one 10 and one 20 before anything else);
two reads without an upstream change invoke nothing further and return
the cached `v0+v0`; after one upstream change each memo function runs
exactly once more, the changed-value memo re-notifies its dependent
(second 30) while the constant memo's recomputation is a no-op write that
does not re-run its dependent (no second 40); the post-change read
returns the fresh cached `v1+v1`. -/
theorem c6_memo_caching : ∀ v0 v1 : Int, v1 ≠ v0 →
    (exec 120 (.prog (progC6 v0 v1)) st0).map (fun r =>
        (r.1.log, r.1.regs.getD 7 .undefined, r.1.regs.getD 8 .undefined, r.2)) =
      some ([.i 10, .i 20, .i 30, .i 40, .i 10, .i 30, .i 20],
        .i (v0 + v0), .i (v1 + v1), .ok (.i (v1 + v1))) := by
  intro v0 v1 h1
  have h2 : v1 + v1 ≠ v0 + v0 := by omega
  simp [progC6, createMemoP, exec, step, voidify, mapSt, st0, getSig, updSig, getComp,
    updComp, addComp, attachChild, newCompNode, defaultSig, defaultComp, setReg,
    insertUniq, pushEvt, eraseFromSubs, enqueueAll, trackRead, Expr.eval, h1, h2,
    List.erase]

/-- c6 witness: the memo scenario at the concrete values 1 and 2. -/
theorem c6_memo_caching_witness :
    (2 : Int) ≠ 1 ∧
    (exec 120 (.prog (progC6 1 2)) st0).map (fun r =>
        (r.1.log, r.1.regs.getD 7 .undefined, r.1.regs.getD 8 .undefined, r.2)) =
      some ([.i 10, .i 20, .i 30, .i 40, .i 10, .i 30, .i 20],
        .i (1 + 1), .i (2 + 2), .ok (.i (2 + 2))) :=
  ⟨by decide, c6_memo_caching 1 2 (by decide)⟩

theorem set_getD_self {α : Type} (l : List α) (n : Nat) (d : α) (h : n < l.length) :
    l.set n (l.getD n d) = l := by
  induction l generalizing n with
  | nil => simp at h
  | cons x t ih =>
      cases n with
      | zero => simp
      | succ m => simpa using ih m (by simpa using h)

theorem getD_append_len {α : Type} (l : List α) (x d : α) :
    (l ++ [x]).getD l.length d = x := by
  induction l with
  | nil => rfl
  | cons a t ih =>
      simp only [List.cons_append, List.length_cons, List.getD_cons_succ]
      exact ih

theorem getD_append_lt {α : Type} (l l2 : List α) (n : Nat) (d : α) (h : n < l.length) :
    (l ++ l2).getD n d = l.getD n d := by
  induction l generalizing n with
  | nil => simp at h
  | cons a t ih =>
      cases n with
      | zero => simp
      | succ m => simpa using ih m (by simpa using h)

theorem updComp_id {st : State} {c : Nat} {g : CompNode → CompNode}
    (hc : c < st.comps.length) (hg : g (getComp st c) = getComp st c) :
    updComp st c g = st := by
  unfold updComp
  rw [hg]
  show { st with comps := st.comps.set c (st.comps.getD c defaultComp) } = st
  rw [set_getD_self _ _ _ hc]

/-- Reading a computation after an update: the updated node when the
index matches and is in range, the old reading otherwise. -/
theorem getComp_updComp (st : State) (c n : Nat) (g : CompNode → CompNode) :
    getComp (updComp st c g) n =
      if c = n ∧ c < st.comps.length then g (getComp st c) else getComp st n := by
  show (st.comps.set c (g (getComp st c))).getD n defaultComp = _
  rcases eq_or_ne c n with h | h
  · subst h
    rw [getD_set_self]
    rcases Nat.lt_or_ge c st.comps.length with hlt | hge
    · rw [if_pos hlt, if_pos ⟨rfl, hlt⟩]
    · rw [if_neg (by omega), if_neg (fun hcon => absurd hcon.2 (by omega))]
      show defaultComp = getComp st c
      unfold getComp
      rw [getD_ge _ _ _ hge]
  · rw [getD_set_ne _ _ _ _ _ h, if_neg (fun hcon => absurd hcon.1 h)]
    rfl

/-- The fresh node allocated by `addComp` keeps the action it was given
(none for a root), whoever the current owner is. -/
theorem getComp_addComp_fn (st : State) (f : Option Prog) :
    (getComp (addComp st f).1 (addComp st f).2).fn = f := by
  have hbase : getComp { st with comps := st.comps ++ [newCompNode f st.owner] }
      st.comps.length = newCompNode f st.owner := by
    show (st.comps ++ [newCompNode f st.owner]).getD st.comps.length defaultComp = _
    rw [getD_append_len]
  show (getComp (attachChild { st with comps := st.comps ++ [newCompNode f st.owner] }
    st.comps.length) st.comps.length).fn = f
  unfold attachChild
  split
  · rw [hbase]
    rfl
  · rw [getComp_updComp]
    split
    · next hcond =>
        obtain ⟨rfl, -⟩ := hcond
        show (getComp { st with comps := st.comps ++ [newCompNode f st.owner] } _).fn = f
        rw [hbase]
        rfl
    · rw [hbase]
      rfl

/-- The c3 counterexample program: a root owning an effect with a cleanup
(marker 1) which itself owns a nested effect with a cleanup (marker 2),
then disposed. -/
def progC3core : Prog :=
  .mkRoot (fun d => .seq
    (.eff (.seq (.onCleanupP (.emit (.lit (.i 1)))) (.eff (.onCleanupP (.emit (.lit (.i 2)))))))
    (.disposeP d))

/-- c3 counterexample: disposing the root runs the owning effect's
cleanup (1) before the nested effect's cleanup (2) — the log is `[1, 2]`,
not the `[2, 1]` that child-before-parent cleanup ordering would
produce: `cleanupNode` drains a node's own cleanups before disposing its
owned children. -/
theorem c3_cleanup_order_counterexample :
    (exec 40 (.prog progC3core) st0).map (fun r => (r.1.log, r.2)) =
      some ([.i 1, .i 2], .ok .undefined) ∧
    ¬ ((exec 40 (.prog progC3core) st0).map (fun r => (r.1.log, r.2)) =
      some ([.i 2, .i 1], .ok .undefined)) := ⟨by decide, by decide⟩

/-- The amended c3 program: the outer effect reads signal 0 (marker 10,
cleanup 1) and owns a nested effect reading signal 1 (marker 20, cleanup
2); the root is disposed and both signals are then written with fresh
values. -/
def progC3full : Prog :=
  .newSig (.lit (.i 0)) (fun a => .newSig (.lit (.i 0)) (fun b =>
  .mkRoot (fun d =>
    .seq (.eff (.seq (.readS a 0) (.seq (.emit (.lit (.i 10)))
          (.seq (.onCleanupP (.emit (.lit (.i 1))))
            (.eff (.seq (.readS b 1) (.seq (.emit (.lit (.i 20)))
              (.onCleanupP (.emit (.lit (.i 2)))))))))))
      (.seq (.disposeP d) (.seq (.writeV a (.lit (.i 5))) (.writeV b (.lit (.i 6))))))))

/-- c3 amended: disposing a root that owns an effect which owns a nested
effect runs every registered cleanup exactly once, in owner-before-child
order — each effect's own cleanups run before its owned children's — and
after disposal writes to both signals the effects had read re-run
nothing: the log is exactly `[10, 20, 1, 2]` and each effect's `run`
count stays at its single creation run. -/
theorem c3_ownership_cascade_amended :
    (exec 60 (.prog progC3full) st0).map (fun r =>
        (r.1.log, r.1.events.count (.run 1), r.1.events.count (.run 2), r.2)) =
      some ([.i 10, .i 20, .i 1, .i 2], 1, 1, .ok .undefined) := by decide

/-- c4: for every `createRoot(fn)` call, the engine allocates an
actionless node, makes it the active owner for the duration of `fn`
(which receives that node as its disposal handle), returns exactly `fn`'s
outcome — value or exception — and on either exit restores the previous
owner, whatever it was, while the listener comes back unchanged. -/
theorem c4_createRoot_contract :
    ∀ fuel st k st' o, exec (fuel+1) (.prog (.mkRoot k)) st = some (st', o) →
      st'.owner = st.owner ∧ st'.listener = st.listener ∧
      (getComp { (addComp st none).1 with owner := some (addComp st none).2 }
        (addComp st none).2).fn = none ∧
      ({ (addComp st none).1 with owner := some (addComp st none).2 } : State).owner =
        some (addComp st none).2 ∧
      ∃ st4, exec fuel (.prog (k (addComp st none).2))
          { (addComp st none).1 with owner := some (addComp st none).2 } = some (st4, o) ∧
        st' = { st4 with owner := st.owner } := by
  intro fuel st k st' o h
  simp only [exec] at h
  obtain ⟨st4, h2, rfl⟩ := mapSt_inv h
  obtain ⟨hl, -, -, -, -⟩ := exec_pres _ _ _ _ _ h2
  have haux : Pres st (addComp st (none : Option Prog)).1 := pres_addComp
  obtain ⟨hl1, -, -, -, -⟩ := haux
  exact ⟨rfl, hl.trans hl1, getComp_addComp_fn st none, rfl, st4, h2, rfl⟩

/-- c4 witness: at the empty state with a body returning `7`, the root
call returns `ok 7`, the allocated node is actionless, and owner and
listener are both restored to `none`. -/
theorem c4_createRoot_contract_witness :
    exec 4 (.prog (.mkRoot (fun _ => .ret (.lit (.i 7))))) st0 =
      some (⟨[], [⟨none, [], [], none, []⟩], none, none, 0, [], [], [], []⟩, .ok (.i 7)) ∧
    (⟨[], [⟨none, [], [], none, []⟩], none, none, 0, [], [], [], []⟩ : State).owner = st0.owner ∧
    (⟨[], [⟨none, [], [], none, []⟩], none, none, 0, [], [], [], []⟩ : State).listener =
      st0.listener := by
  refine ⟨rfl, ?_, ?_⟩
  · exact (c4_createRoot_contract 3 st0 (fun _ => .ret (.lit (.i 7))) _ _ rfl).1
  · exact (c4_createRoot_contract 3 st0 (fun _ => .ret (.lit (.i 7))) _ _ rfl).2.1

/-- The c7 throwing programs: an effect that throws on its very first
(creation) run, and an effect that runs cleanly at creation but throws on
the re-run triggered by a later write. -/
def progC7a : Prog := .newSig (.lit (.i 0)) (fun _ => .eff .throwP)

def progC7b : Prog :=
  .newSig (.lit (.i 0)) (fun s =>
    .seq (.eff (.seq (.readS s 0) (.iteZ 0 .skip .throwP)))
      (.seq (.emit (.lit (.i 5))) (.seq (.writeV s (.lit (.i 1))) (.emit (.lit (.i 9))))))

/-- c7: on every completed engine call — normal or exceptional — the
active listener and owner come back to their entry values; and a throwing
computation propagates synchronously with no implicit recovery: the
effect that throws at creation makes the whole `createEffect` call throw,
and the effect that throws on re-run makes the triggering write throw,
aborting the rest of the program (the `9` is never logged) while the
tracking globals are still restored to `none`. -/
theorem c7_exception_restoration :
    (∀ fuel kc st st' o, exec fuel kc st = some (st', o) →
        st'.listener = st.listener ∧ st'.owner = st.owner) ∧
    (exec 30 (.prog progC7a) st0).map (fun r => (r.1.listener, r.1.owner, r.2)) =
      some (none, none, .thrown) ∧
    (exec 40 (.prog progC7b) st0).map (fun r => (r.1.log, r.1.listener, r.1.owner, r.2)) =
      some ([.i 5], none, none, .thrown) := by
  refine ⟨?_, by decide, by decide⟩
  intro fuel kc st st' o h
  obtain ⟨hl, ho, -, -, -⟩ := exec_pres _ _ _ _ _ h
  exact ⟨hl, ho⟩

/-- c7 witness: the creation-throw program ends thrown with listener and
owner equal to their entry values. -/
theorem c7_exception_restoration_witness :
    exec 30 (.prog progC7a) st0 =
      some (⟨[⟨.i 0, []⟩], [⟨some .throwP, [], [], none, []⟩], none, none, 0, [], [], [],
        [.run 0]⟩, .thrown) ∧
    (⟨[⟨.i 0, []⟩], [⟨some .throwP, [], [], none, []⟩], none, none, 0, [], [], [],
        [.run 0]⟩ : State).listener = st0.listener ∧
    (⟨[⟨.i 0, []⟩], [⟨some .throwP, [], [], none, []⟩], none, none, 0, [], [], [],
        [.run 0]⟩ : State).owner = st0.owner := by
  refine ⟨rfl, ?_⟩
  exact c7_exception_restoration.1 30 (.prog progC7a) st0 _ _ rfl

/-- The c8 program: a root with its own cleanup (1) owning an effect with
a cleanup (2), disposed twice in a row. -/
def progC8 : Prog :=
  .mkRoot (fun d => .seq (.onCleanupP (.emit (.lit (.i 1))))
    (.seq (.eff (.onCleanupP (.emit (.lit (.i 2)))))
      (.seq (.disposeP d) (.disposeP d))))

/-- c8: a dispose on a node whose cleanup, children and sources lists are
already drained and whose action is already inert — exactly the state any
completed dispose leaves behind, since each list is emptied immediately
after being drained — returns the state unchanged: it runs no cleanup and
disposes no child, and in particular disposing a node that owns nothing
is valid.  The double-dispose program logs each cleanup exactly once. -/
theorem c8_dispose_idempotent :
    (∀ fuel st c, c < st.comps.length →
        (getComp st c).cleanups = [] → (getComp st c).owned = [] →
        (getComp st c).sources = [] → (getComp st c).fn = none →
        exec (fuel+3) (.dispose c) st = some (st, .ok .undefined)) ∧
    (exec 50 (.prog progC8) st0).map (fun r => (r.1.log, r.2)) =
      some ([.i 1, .i 2], .ok .undefined) := by
  refine ⟨?_, by decide⟩
  intro fuel st c hc h1 h2 h3 h4
  have u1 : updComp st c (fun cn => { cn with cleanups := [] }) = st := by
    refine updComp_id hc ?_
    rcases hgc : getComp st c with ⟨fn2, src2, cl2, ow2, od2⟩
    rw [hgc] at h1
    rw [show cl2 = ([] : List Prog) from h1]
  have u2 : updComp st c (fun cn => { cn with owned := [] }) = st := by
    refine updComp_id hc ?_
    rcases hgc : getComp st c with ⟨fn2, src2, cl2, ow2, od2⟩
    rw [hgc] at h2
    rw [show od2 = ([] : List Nat) from h2]
  have u3 : updComp st c (fun cn => { cn with sources := [], fn := none }) = st := by
    refine updComp_id hc ?_
    rcases hgc : getComp st c with ⟨fn2, src2, cl2, ow2, od2⟩
    rw [hgc] at h3 h4
    rw [show src2 = ([] : List Nat) from h3, show fn2 = (none : Option Prog) from h4]
  simp [exec, step, h1, h2, h3, h4, u1, u2, u3, eraseFromSubs]

/-- c8 witness: disposing the single drained computation of a one-node
state is an exact no-op. -/
theorem c8_dispose_idempotent_witness :
    0 < (sigOnlySt []).comps.length + 1 ∧
    exec 8 (.dispose 0)
        ⟨[], [⟨none, [], [], none, []⟩], none, none, 0, [], [], [], []⟩ =
      some (⟨[], [⟨none, [], [], none, []⟩], none, none, 0, [], [], [], []⟩, .ok .undefined) :=
  ⟨by decide, c8_dispose_idempotent.1 5
    ⟨[], [⟨none, [], [], none, []⟩], none, none, 0, [], [], [], []⟩ 0
    (by decide) rfl rfl rfl rfl⟩

/-- The c10 program: a root owning a nested root (whose own dispose
callback is never used) with a cleanup (2) and an owned effect with a
cleanup (3); only the outer root is disposed, after logging 1. -/
def progC10 : Prog :=
  .mkRoot (fun d =>
    .seq (.mkRoot (fun _ => .seq (.onCleanupP (.emit (.lit (.i 2))))
          (.eff (.onCleanupP (.emit (.lit (.i 3)))))))
      (.seq (.emit (.lit (.i 1))) (.disposeP d)))

/-- c10: a root created while an owner is active is attached as that
owner's child — its index is appended to the owner's `owned` list and its
`owner` field points back — so disposing the outer owner cascades into
the nested root: both the nested root's cleanup and its owned effect's
cleanup run (log `[1, 2, 3]`) even though the nested root's own dispose
callback is never invoked. -/
theorem c10_nested_root_ownership :
    (∀ st f w, st.owner = some w → w < st.comps.length →
        (getComp (addComp st f).1 w).owned = (getComp st w).owned ++ [st.comps.length] ∧
        (getComp (addComp st f).1 (addComp st f).2).owner = some w) ∧
    (exec 40 (.prog progC10) st0).map (fun r => (r.1.log, r.2)) =
      some ([.i 1, .i 2, .i 3], .ok .undefined) := by
  refine ⟨?_, by decide⟩
  intro st f w hw hlt
  have hbase : getComp { st with comps := st.comps ++ [newCompNode f st.owner] }
      st.comps.length = newCompNode f st.owner := by
    show (st.comps ++ [newCompNode f st.owner]).getD st.comps.length defaultComp = _
    rw [getD_append_len]
  have hkeep : getComp { st with comps := st.comps ++ [newCompNode f st.owner] } w =
      getComp st w := by
    show (st.comps ++ [newCompNode f st.owner]).getD w defaultComp = _
    rw [getD_append_lt _ _ _ _ hlt]
    rfl
  have hatt : attachChild { st with comps := st.comps ++ [newCompNode f st.owner] }
      st.comps.length =
      updComp { st with comps := st.comps ++ [newCompNode f st.owner] } w
        (fun cn => { cn with owned := cn.owned ++ [st.comps.length] }) := by
    unfold attachChild
    show (match st.owner with | none => _ | some o => _) = _
    rw [hw]
  constructor
  · show (getComp (attachChild { st with comps := st.comps ++ [newCompNode f st.owner] }
      st.comps.length) w).owned = _
    rw [hatt, getComp_updComp,
      if_pos ⟨rfl, by simp only [List.length_append, List.length_singleton]; omega⟩, hkeep]
  · show (getComp (attachChild { st with comps := st.comps ++ [newCompNode f st.owner] }
      st.comps.length) st.comps.length).owner = some w
    rw [hatt, getComp_updComp, if_neg (fun hcon => absurd hcon.1 (by omega)), hbase]
    show st.owner = some w
    exact hw

/-- c10 witness: in a state whose single computation 0 is the active
owner, a fresh root is appended to computation 0's owned list and points
back at it as owner. -/
theorem c10_nested_root_ownership_witness :
    (⟨[], [⟨none, [], [], none, []⟩], none, some 0, 0, [], [], [], []⟩ : State).owner =
      some 0 ∧
    (getComp (addComp ⟨[], [⟨none, [], [], none, []⟩], none, some 0, 0, [], [], [], []⟩
        none).1 0).owned = [1] ∧
    (getComp (addComp ⟨[], [⟨none, [], [], none, []⟩], none, some 0, 0, [], [], [], []⟩
        none).1 1).owner = some 0 := by
  refine ⟨rfl, ?_⟩
  have h := c10_nested_root_ownership.1
    ⟨[], [⟨none, [], [], none, []⟩], none, some 0, 0, [], [], [], []⟩ none 0 rfl (by decide)
  exact ⟨h.1, h.2⟩
